import Mathlib

/-!
Shallow embedding of `Skin_Weights_Addon/skin_weights_operator.py`.

Scalars (Blender floats) are modelled as rationals `ℚ`, so the arithmetic of
the source (sums, averages, squared distances, comparisons) is exact.  A mesh
is modelled by the data the addon actually reads from the host:

* `vertices` — the positions, in the host's vertex iteration order; the
  positional index of the list is `vert.index` (the host guarantees
  `vertices[i].index == i`);
* `uv_layer` — `none` when there is no active UV layer, otherwise the list of
  loop entries, each pairing `loop.vertex_index` with the UV coordinate stored
  at `uv_data[loop.index]` (the two arrays are parallel, indexed by the loop's
  position, so we fuse them into one list);
* `vertex_groups` — named groups; `group.weight(i)` raises `RuntimeError`
  when the vertex is not a member, which we model by an association-list
  lookup returning `Option ℚ`.

File output is modelled by the parsed shape of the JSON document the exporter
writes (`Document`), and the import side's weight sink (the target object's
`vertex_groups`, mutated via `get`/`new`/`add(..., 'REPLACE')`) by an ordered
association list `Sink`.  `Option` fields on `VertexRecord` model JSON keys
that a foreign file may omit (`v.get("uv", [0.0, 0.0])`,
`closest_data.get("weights", {})`).
-/

set_option autoImplicit false

namespace SkinWeights

/-- One vertex group of the host mesh: its unique name and its per-vertex
stored weights (an association list; absence models the `RuntimeError` that
`group.weight(index)` raises for a vertex outside the group). -/
structure VGroup where
  name : String
  weights : List (Nat × ℚ)
  deriving DecidableEq

/-- The data the addon reads from the active mesh object. -/
structure Mesh where
  vertices : List (ℚ × ℚ × ℚ)
  uv_layer : Option (List (Nat × ℚ × ℚ))
  vertex_groups : List VGroup
  deriving DecidableEq

/-- One record of the serialized dataset, as parsed back from JSON.  `uv` and
`weights` are optional because a foreign file may lack those keys; the
exporter itself always writes both. -/
structure VertexRecord where
  co : ℚ × ℚ × ℚ
  uv : Option (ℚ × ℚ)
  weights : Option (List (String × ℚ))
  deriving DecidableEq

/-- The whole document: a single top-level object with the one array field
`"vertices"`. -/
structure Document where
  vertices : List VertexRecord
  deriving DecidableEq

/-- First-match lookup in a weight association list (`group.weight`). -/
def lookupW : List (Nat × ℚ) → Nat → Option ℚ
  | [], _ => none
  | (k, v) :: rest, vi => if k = vi then some v else lookupW rest vi

/-- Python-dict insertion: overwrite the value at an existing key in place,
otherwise append the new key at the end (dict insertion order). -/
def dictInsert : List (String × ℚ) → String → ℚ → List (String × ℚ)
  | [], k, v => [(k, v)]
  | (k', v') :: rest, k, v =>
    if k' = k then (k', v) :: rest else (k', v') :: dictInsert rest k v

/-- Embeds `get_uv_coords(obj, vert_index)`: average of the UV coordinates of
all loop entries referencing the vertex, `none` when there is no active UV
layer or no loop references the vertex. -/
def get_uv_coords (uv_layer : Option (List (Nat × ℚ × ℚ))) (vert_index : Nat) :
    Option (ℚ × ℚ) :=
  match uv_layer with
  | none => none
  | some loops =>
    let uvs := (loops.filter (fun l => l.1 == vert_index)).map (fun l => l.2)
    if uvs = [] then none
    else some ((uvs.map Prod.fst).sum / (uvs.length : ℚ),
               (uvs.map Prod.snd).sum / (uvs.length : ℚ))

/-- One group's contribution to a vertex's `"weights"` dict: query the weight
(`try: group.weight(...) except RuntimeError: pass`) and store it only when it
is strictly positive. -/
def exportStep (vi : Nat) (d : List (String × ℚ)) (g : VGroup) : List (String × ℚ) :=
  match lookupW g.weights vi with
  | some w => if 0 < w then dictInsert d g.name w else d
  | none => d

/-- The inner loop of the exporter over `obj.vertex_groups`: build the
`"weights"` dict of one vertex, keeping only weights that are present and
strictly positive. -/
def buildWeights (groups : List VGroup) (vi : Nat) : List (String × ℚ) :=
  groups.foldl (exportStep vi) []

/-- The record the exporter serializes for vertex `i` at position `co`:
`{"co": ..., "uv": get_uv_coords(...) or [0.0, 0.0], "weights": {...}}`. -/
def mkRecord (m : Mesh) (i : Nat) (co : ℚ × ℚ × ℚ) : VertexRecord :=
  { co := co
    uv := some ((get_uv_coords m.uv_layer i).getD (0, 0))
    weights := some (buildWeights m.vertex_groups i) }

/-- The exporter's `for i, vert in enumerate(vertices)` loop, one record per
vertex in iteration order. -/
def exportLoop (m : Mesh) : List (ℚ × ℚ × ℚ) → Nat → List VertexRecord
  | [], _ => []
  | co :: rest, i => mkRecord m i co :: exportLoop m rest (i + 1)

/-- Embeds `export_skin_weights`: `none` when the mesh has no vertices (the
operator aborts before opening the file), otherwise the document written. -/
def export_skin_weights (m : Mesh) : Option Document :=
  if m.vertices = [] then none
  else some ⟨exportLoop m m.vertices 0⟩

/-- Squared Euclidean distance in 2D UV space
(`sum((a - b) ** 2 for a, b in zip(target_uv, source_uv))`). -/
def sqDist2 (a b : ℚ × ℚ) : ℚ := (a.1 - b.1) ^ 2 + (a.2 - b.2) ^ 2

/-- Squared Euclidean distance in 3D. -/
def sqDist3 (a b : ℚ × ℚ × ℚ) : ℚ :=
  (a.1 - b.1) ^ 2 + (a.2.1 - b.2.1) ^ 2 + (a.2.2 - b.2.2) ^ 2

/-- Comparison against a running minimum initialised to `float('inf')`:
`none` plays the infinity, every finite distance beats it. -/
def ltInf (d : ℚ) : Option ℚ → Bool
  | none => true
  | some m => decide (d < m)

/-- The linear scan shared by the matchers: walk the distance list keeping
`min_dist` (starting at infinity) and `best_index` (starting at `-1`),
updating both exactly when the current distance is strictly smaller. -/
def scanMinAux : List ℚ → Nat → Option ℚ → Int → Int
  | [], _, _, best => best
  | d :: rest, i, minD, best =>
    if ltInf d minD then scanMinAux rest (i + 1) (some d) (Int.ofNat i)
    else scanMinAux rest (i + 1) minD best

/-- The target vertex's own averaged UV, `[0.0, 0.0]` when unavailable. -/
def targetUV (obj : Mesh) (vi : Nat) : ℚ × ℚ :=
  (get_uv_coords obj.uv_layer vi).getD (0, 0)

/-- A record's UV as used by the matcher: `v.get("uv", [0.0, 0.0])`. -/
def recordUV (r : VertexRecord) : ℚ × ℚ := r.uv.getD (0, 0)

/-- Embeds `find_closest_uv_match(obj, vert, source_data)`: `-1` for an empty
dataset, otherwise the index tracked by the strict-minimum linear scan over
the squared UV distances. -/
def find_closest_uv_match (obj : Mesh) (vi : Nat) (data : List VertexRecord) :
    Int :=
  if data = [] then -1
  else scanMinAux (data.map fun r => sqDist2 (targetUV obj vi) (recordUV r)) 0 none (-1)

/-- Modelled from the spec: `mathutils.kdtree.KDTree` (an external library,
not part of this repository's sources).  Section 4.3 of the spec requires
exact nearest-neighbour queries by Euclidean distance in 3D with ties broken
deterministically by first encounter, which the first-strict-minimum linear
scan realises; `-1` stands for the `None` index an empty tree returns. -/
def kdtree_find (pts : List (ℚ × ℚ × ℚ)) (q : ℚ × ℚ × ℚ) : Int :=
  if pts = [] then -1
  else scanMinAux (pts.map fun p => sqDist3 q p) 0 none (-1)

/-- The import side's view of the target object's `vertex_groups`: group
names in creation order, each with its per-vertex weights. -/
abbrev Sink : Type := List (String × List (Nat × ℚ))

/-- Set-with-replace of one vertex's weight inside one group
(`group.add([vert.index], weight, 'REPLACE')`). -/
def assocSet : List (Nat × ℚ) → Nat → ℚ → List (Nat × ℚ)
  | [], vi, w => [(vi, w)]
  | (k, v) :: rest, vi, w =>
    if k = vi then (k, w) :: rest else (k, v) :: assocSet rest vi w

/-- Name lookup among the target's groups (`obj.vertex_groups.get(name)`). -/
def sinkGet : Sink → String → Option (List (Nat × ℚ))
  | [], _ => none
  | (n, l) :: rest, name => if n = name then some l else sinkGet rest name

/-- One `group_name, weight` step of the import loop: look the group up,
create it (appended at the end, as `vertex_groups.new` does) when absent,
then set the vertex's weight with replace semantics. -/
def applyWeight : Sink → String → Nat → ℚ → Sink
  | [], name, vi, w => [(name, assocSet [] vi w)]
  | (n, l) :: rest, name, vi, w =>
    if n = name then (n, assocSet l vi w) :: rest
    else (n, l) :: applyWeight rest name vi w

/-- The weight a sink currently stores for vertex `vi` in group `name`. -/
def sinkLookup (s : Sink) (name : String) (vi : Nat) : Option ℚ :=
  (sinkGet s name).bind fun l => lookupW l vi

/-- The `if/elif/else` block of the importer's vertex loop: the index of the
matched record, or `none` when the vertex is to be skipped (no UV match, or an
unknown mapping mode's bare `continue`). -/
def matchIndex (mode : String) (data : List VertexRecord) (obj : Mesh)
    (vi : Nat) (co : ℚ × ℚ × ℚ) : Option Int :=
  if mode = "POSITION" then some (kdtree_find (data.map fun r => r.co) co)
  else if mode = "UV" then
    let j := find_closest_uv_match obj vi data
    if j = -1 then none else some j
  else none

/-- The body of the importer's `for vert in obj.data.vertices` loop for one
target vertex: pick the matched record's index according to the mapping mode
(skipping the vertex when there is no match or the mode is unknown), then
apply every weight of the matched record, skipping records without
weights. -/
def processVertex (mode : String) (data : List VertexRecord) (obj : Mesh)
    (vi : Nat) (co : ℚ × ℚ × ℚ) (sink : Sink) : Sink :=
  match matchIndex mode data obj vi co with
  | none => sink
  | some j =>
    match data.get? j.toNat with
    | none => sink
    | some closest =>
      let weights := closest.weights.getD []
      if weights = [] then sink
      else weights.foldl (fun s p => applyWeight s p.1 vi p.2) sink

/-- The importer's vertex loop, threading the sink state. -/
def importLoop (mode : String) (data : List VertexRecord) (obj : Mesh) :
    List (ℚ × ℚ × ℚ) → Nat → Sink → Sink
  | [], _, sink => sink
  | co :: rest, i, sink =>
    importLoop mode data obj rest (i + 1) (processVertex mode data obj i co sink)

/-- Outcome of an import call: on the error paths the function returns before
touching the target object, so the sink carried by `error` is the input
sink, unchanged. -/
inductive ImportOutcome where
  | error (msg : String) (sink : Sink)
  | ok (sink : Sink)
  deriving DecidableEq

/-- Embeds `import_skin_weights(filepath, mapping_mode)` applied to an
already-read file: `parsed = none` models a `json.load` failure, and a parsed
document whose `"vertices"` entry is absent or empty models the
`if not vertices_data` abort.  `obj` is the target mesh geometry and `sink`
the state of its vertex groups before the call. -/
def import_skin_weights (parsed : Option Document) (mode : String) (obj : Mesh)
    (sink : Sink) : ImportOutcome :=
  match parsed with
  | none => .error "Import Failed" sink
  | some doc =>
    if doc.vertices = [] then .error "No valid vertex data found in file!" sink
    else .ok (importLoop mode doc.vertices obj obj.vertices 0 sink)

/-- The sink corresponding to a mesh's own vertex groups: the state of an
identical, untouched copy of the source mesh. -/
def meshSink (m : Mesh) : Sink := m.vertex_groups.map fun g => (g.name, g.weights)

/-! Helper lemmas about the linear strict-minimum scan. -/

/-- Once the running minimum is finite, the scan either never updates (every
remaining distance is at least the running minimum, and the carried best index
is returned) or returns the offset of the first strict minimum of the
remaining distances. -/
theorem scanMinAux_some (ds : List ℚ) :
    ∀ (i : Nat) (m : ℚ) (b : Int),
      (scanMinAux ds i (some m) b = b ∧ ∀ j, ∀ hj : j < ds.length, m ≤ ds[j])
      ∨ (∃ k, ∃ hk : k < ds.length,
          scanMinAux ds i (some m) b = Int.ofNat (i + k) ∧ ds[k] < m ∧
          (∀ j, ∀ hj : j < ds.length, ds[k] ≤ ds[j]) ∧
          (∀ j, j < k → ∀ hj : j < ds.length, ds[k] < ds[j])) := by
  induction ds with
  | nil =>
    intro i m b
    left
    refine ⟨rfl, ?_⟩
    intro j hj
    simp at hj
  | cons d rest ih =>
    intro i m b
    by_cases hd : d < m
    · have step : scanMinAux (d :: rest) i (some m) b
          = scanMinAux rest (i + 1) (some d) (Int.ofNat i) := by
        simp [scanMinAux, ltInf, hd]
      rcases ih (i + 1) d (Int.ofNat i) with ⟨hres, hall⟩ | ⟨k, hk, hres, hlt, hmin, hfirst⟩
      · right
        refine ⟨0, by simp, ?_, by simpa using hd, ?_, ?_⟩
        · rw [step, hres]
          congr 1
        · intro j hj
          cases j with
          | zero => simp
          | succ j' =>
            simp only [List.getElem_cons_zero, List.getElem_cons_succ]
            exact hall j' (by simpa using hj)
        · intro j hj
          omega
      · right
        refine ⟨k + 1, by simpa using hk, ?_, ?_, ?_, ?_⟩
        · rw [step, hres]
          congr 1
          omega
        · simpa using lt_trans hlt hd
        · intro j hj
          cases j with
          | zero =>
            simp only [List.getElem_cons_zero, List.getElem_cons_succ]
            exact le_of_lt hlt
          | succ j' =>
            simp only [List.getElem_cons_succ]
            exact hmin j' (by simpa using hj)
        · intro j hjk hj
          cases j with
          | zero =>
            simp only [List.getElem_cons_zero, List.getElem_cons_succ]
            exact hlt
          | succ j' =>
            simp only [List.getElem_cons_succ]
            exact hfirst j' (by omega) (by simpa using hj)
    · have step : scanMinAux (d :: rest) i (some m) b
          = scanMinAux rest (i + 1) (some m) b := by
        simp [scanMinAux, ltInf, hd]
      rcases ih (i + 1) m b with ⟨hres, hall⟩ | ⟨k, hk, hres, hlt, hmin, hfirst⟩
      · left
        refine ⟨by rw [step, hres], ?_⟩
        intro j hj
        cases j with
        | zero => simpa using le_of_not_lt hd
        | succ j' =>
          simp only [List.getElem_cons_succ]
          exact hall j' (by simpa using hj)
      · right
        have hmd : m ≤ d := le_of_not_lt hd
        refine ⟨k + 1, by simpa using hk, ?_, ?_, ?_, ?_⟩
        · rw [step, hres]
          congr 1
          omega
        · simpa using hlt
        · intro j hj
          cases j with
          | zero =>
            simp only [List.getElem_cons_zero, List.getElem_cons_succ]
            exact le_of_lt (lt_of_lt_of_le hlt hmd)
          | succ j' =>
            simp only [List.getElem_cons_succ]
            exact hmin j' (by simpa using hj)
        · intro j hjk hj
          cases j with
          | zero =>
            simp only [List.getElem_cons_zero, List.getElem_cons_succ]
            exact lt_of_lt_of_le hlt hmd
          | succ j' =>
            simp only [List.getElem_cons_succ]
            exact hfirst j' (by omega) (by simpa using hj)

/-- Started from infinity on a non-empty distance list, the scan returns the
index of the first minimum: minimal among all entries, and strictly below
every earlier entry. -/
theorem scanMin_spec (ds : List ℚ) (b : Int) (h : ds ≠ []) :
    ∃ k, ∃ hk : k < ds.length, scanMinAux ds 0 none b = Int.ofNat k ∧
      (∀ j, ∀ hj : j < ds.length, ds[k] ≤ ds[j]) ∧
      (∀ j, j < k → ∀ hj : j < ds.length, ds[k] < ds[j]) := by
  match ds, h with
  | d :: rest, _ =>
    have step : scanMinAux (d :: rest) 0 none b
        = scanMinAux rest 1 (some d) (Int.ofNat 0) := by
      simp [scanMinAux, ltInf]
    rcases scanMinAux_some rest 1 d (Int.ofNat 0) with ⟨hres, hall⟩ | ⟨k, hk, hres, hlt, hmin, hfirst⟩
    · refine ⟨0, by simp, by rw [step, hres], ?_, ?_⟩
      · intro j hj
        cases j with
        | zero => simp
        | succ j' =>
          simp only [List.getElem_cons_zero, List.getElem_cons_succ]
          exact hall j' (by simpa using hj)
      · intro j hjk hj
        omega
    · refine ⟨k + 1, by simpa using hk, by rw [step, hres]; congr 1; omega, ?_, ?_⟩
      · intro j hj
        cases j with
        | zero =>
          simp only [List.getElem_cons_zero, List.getElem_cons_succ]
          exact le_of_lt hlt
        | succ j' =>
          simp only [List.getElem_cons_succ]
          exact hmin j' (by simpa using hj)
      · intro j hjk hj
        cases j with
        | zero =>
          simp only [List.getElem_cons_zero, List.getElem_cons_succ]
          exact hlt
        | succ j' =>
          simp only [List.getElem_cons_succ]
          exact hfirst j' (by omega) (by simpa using hj)

/-! Squared-distance facts and the nearest-neighbour query at an indexed
point. -/

theorem sqDist3_nonneg (a b : ℚ × ℚ × ℚ) : 0 ≤ sqDist3 a b := by
  unfold sqDist3
  positivity

theorem sqDist3_self (a : ℚ × ℚ × ℚ) : sqDist3 a a = 0 := by
  simp [sqDist3]

theorem sqDist3_eq_zero (a b : ℚ × ℚ × ℚ) (h : sqDist3 a b = 0) : a = b := by
  obtain ⟨a1, a2, a3⟩ := a
  obtain ⟨b1, b2, b3⟩ := b
  unfold sqDist3 at h
  simp only at h
  have h1 : a1 = b1 := by nlinarith [sq_nonneg (a1 - b1), sq_nonneg (a2 - b2), sq_nonneg (a3 - b3)]
  have h2 : a2 = b2 := by nlinarith [sq_nonneg (a1 - b1), sq_nonneg (a2 - b2), sq_nonneg (a3 - b3)]
  have h3 : a3 = b3 := by nlinarith [sq_nonneg (a1 - b1), sq_nonneg (a2 - b2), sq_nonneg (a3 - b3)]
  simp [h1, h2, h3]

/-- Querying the tree at the position of an indexed point returns that very
index whenever the indexed positions are pairwise distinct: the distance-zero
candidate is minimal, and no other point attains distance zero. -/
theorem kdtree_find_self (pts : List (ℚ × ℚ × ℚ)) (hnd : pts.Nodup)
    (i : Nat) (hi : i < pts.length) : kdtree_find pts pts[i] = Int.ofNat i := by
  have hne : pts ≠ [] := by
    intro h
    subst h
    simp at hi
  unfold kdtree_find
  rw [if_neg hne]
  have hdne : (pts.map fun p => sqDist3 pts[i] p) ≠ [] := by
    simpa using hne
  obtain ⟨k, hk, hres, hmin, _⟩ := scanMin_spec (pts.map fun p => sqDist3 pts[i] p) (-1) hdne
  have hk' : k < pts.length := by simpa using hk
  have hdk : (pts.map fun p => sqDist3 pts[i] p)[k] = sqDist3 pts[i] pts[k] := by
    simp
  have hile : i < (pts.map fun p => sqDist3 pts[i] p).length := by simpa using hi
  have hle := hmin i hile
  rw [hdk] at hle
  have hdi : (pts.map fun p => sqDist3 pts[i] p)[i] = sqDist3 pts[i] pts[i] := by
    simp
  rw [hdi, sqDist3_self] at hle
  have hzero : sqDist3 pts[i] pts[k] = 0 := le_antisymm hle (sqDist3_nonneg _ _)
  have heq : pts[i] = pts[k] := sqDist3_eq_zero _ _ hzero
  have hik : i = k := (List.Nodup.getElem_inj_iff hnd).mp heq
  rw [hres, hik]

/-! Structure of the exported record list. -/

theorem exportLoop_length (m : Mesh) :
    ∀ (vs : List (ℚ × ℚ × ℚ)) (i : Nat), (exportLoop m vs i).length = vs.length := by
  intro vs
  induction vs with
  | nil => intro i; rfl
  | cons co rest ih =>
    intro i
    simp [exportLoop, ih]

theorem exportLoop_map_co (m : Mesh) :
    ∀ (vs : List (ℚ × ℚ × ℚ)) (i : Nat),
      (exportLoop m vs i).map (fun r => r.co) = vs := by
  intro vs
  induction vs with
  | nil => intro i; rfl
  | cons co rest ih =>
    intro i
    simp [exportLoop, mkRecord, ih]

theorem exportLoop_get? (m : Mesh) :
    ∀ (vs : List (ℚ × ℚ × ℚ)) (i j : Nat),
      (exportLoop m vs i).get? j = (vs.get? j).map (fun co => mkRecord m (i + j) co) := by
  intro vs
  induction vs with
  | nil => intro i j; rfl
  | cons co rest ih =>
    intro i j
    cases j with
    | zero => rfl
    | succ j' =>
      have harith : i + 1 + j' = i + (j' + 1) := by omega
      simp only [exportLoop, List.get?_cons_succ, ih (i + 1) j', harith]

/-! Association-list and sink lemmas: replace semantics and preservation. -/

theorem lookupW_assocSet (l : List (Nat × ℚ)) (vi : Nat) (w : ℚ) :
    lookupW (assocSet l vi w) vi = some w := by
  induction l with
  | nil => simp [assocSet, lookupW]
  | cons p rest ih =>
    obtain ⟨k, v⟩ := p
    by_cases hk : k = vi
    · simp [assocSet, lookupW, hk]
    · simp [assocSet, lookupW, hk, ih]

theorem assocSet_self (l : List (Nat × ℚ)) (vi : Nat) (w : ℚ)
    (h : lookupW l vi = some w) : assocSet l vi w = l := by
  induction l with
  | nil => simp [lookupW] at h
  | cons p rest ih =>
    obtain ⟨k, v⟩ := p
    by_cases hk : k = vi
    · simp only [lookupW, if_pos hk] at h
      obtain rfl : v = w := by injection h
      simp [assocSet, hk]
    · simp only [lookupW, if_neg hk] at h
      simp [assocSet, hk, ih h]

theorem applyWeight_self (s : Sink) (name : String) (vi : Nat) (w : ℚ)
    (l : List (Nat × ℚ)) (h1 : sinkGet s name = some l)
    (h2 : lookupW l vi = some w) : applyWeight s name vi w = s := by
  induction s with
  | nil => simp [sinkGet] at h1
  | cons p rest ih =>
    obtain ⟨n, l'⟩ := p
    by_cases hn : n = name
    · simp only [sinkGet, if_pos hn] at h1
      have hl : l' = l := by injection h1
      subst hl
      simp [applyWeight, hn, assocSet_self l' vi w h2]
    · simp only [sinkGet, if_neg hn] at h1
      simp [applyWeight, hn, ih h1]

theorem foldl_applyWeight_self (vi : Nat) :
    ∀ (ws : List (String × ℚ)) (sink : Sink),
      (∀ p ∈ ws, ∃ l, sinkGet sink p.1 = some l ∧ lookupW l vi = some p.2) →
      ws.foldl (fun s p => applyWeight s p.1 vi p.2) sink = sink := by
  intro ws
  induction ws with
  | nil => intro sink _; rfl
  | cons p rest ih =>
    intro sink h
    obtain ⟨l, hl1, hl2⟩ := h p (List.mem_cons_self p rest)
    have hstep : applyWeight sink p.1 vi p.2 = sink := applyWeight_self sink p.1 vi p.2 l hl1 hl2
    simp only [List.foldl_cons, hstep]
    exact ih sink (fun q hq => h q (List.mem_cons_of_mem p hq))

theorem sinkGet_meshSink (groups : List VGroup)
    (hnd : (groups.map VGroup.name).Nodup) (vg : VGroup) (hvg : vg ∈ groups) :
    sinkGet (groups.map fun g => (g.name, g.weights)) vg.name = some vg.weights := by
  induction groups with
  | nil => simp at hvg
  | cons g rest ih =>
    rcases List.mem_cons.mp hvg with rfl | hvg'
    · simp [sinkGet]
    · have hne : g.name ≠ vg.name := by
        intro heq
        have : g.name ∈ rest.map VGroup.name := heq ▸ List.mem_map_of_mem VGroup.name hvg'
        exact (List.nodup_cons.mp (by simpa using hnd)).1 this
      simp only [List.map_cons, sinkGet, if_neg hne]
      exact ih (List.nodup_cons.mp (by simpa using hnd)).2 hvg'

/-! The import loop leaves the sink unchanged when every step does. -/

theorem importLoop_const (mode : String) (data : List VertexRecord) (obj : Mesh) :
    ∀ (vs : List (ℚ × ℚ × ℚ)) (i : Nat) (sink : Sink),
      (∀ j, ∀ hj : j < vs.length, processVertex mode data obj (i + j) vs[j] sink = sink) →
      importLoop mode data obj vs i sink = sink := by
  intro vs
  induction vs with
  | nil => intro i sink _; rfl
  | cons co rest ih =>
    intro i sink h
    have h0 : processVertex mode data obj i co sink = sink := by
      simpa using h 0 (by simp)
    simp only [importLoop, h0]
    refine ih (i + 1) sink ?_
    intro j hj
    have := h (j + 1) (by simpa using hj)
    simpa [Nat.add_assoc, Nat.add_comm 1 j] using this

/-! The weights dict built by the exporter: positivity and, for meshes with
pairwise-distinct group names, an exact membership characterization. -/

theorem dictInsert_pos (k : String) (v : ℚ) (hv : 0 < v) :
    ∀ d : List (String × ℚ), (∀ p ∈ d, 0 < p.2) →
      ∀ p ∈ dictInsert d k v, 0 < p.2 := by
  intro d
  induction d with
  | nil =>
    intro _ p hp
    simp only [dictInsert, List.mem_singleton] at hp
    simpa [hp]
  | cons q rest ih =>
    obtain ⟨k', v'⟩ := q
    intro hd p hp
    by_cases hk : k' = k
    · simp only [dictInsert, if_pos hk, List.mem_cons] at hp
      rcases hp with rfl | hp
      · simpa
      · exact hd p (List.mem_cons_of_mem _ hp)
    · simp only [dictInsert, if_neg hk, List.mem_cons] at hp
      rcases hp with rfl | hp
      · exact hd (k', v') (List.mem_cons_self _ _)
      · exact ih (fun q hq => hd q (List.mem_cons_of_mem _ hq)) p hp

theorem foldl_exportStep_pos (vi : Nat) :
    ∀ (groups : List VGroup) (d : List (String × ℚ)), (∀ p ∈ d, 0 < p.2) →
      ∀ p ∈ groups.foldl (exportStep vi) d, 0 < p.2 := by
  intro groups
  induction groups with
  | nil => intro d hd p hp; exact hd p hp
  | cons g rest ih =>
    intro d hd p hp
    simp only [List.foldl_cons] at hp
    refine ih (exportStep vi d g) ?_ p hp
    unfold exportStep
    cases hw : lookupW g.weights vi with
    | none => exact hd
    | some w =>
      by_cases hpos : 0 < w
      · simpa [hpos] using dictInsert_pos g.name w hpos d hd
      · simpa [hpos] using hd

theorem buildWeights_pos (groups : List VGroup) (vi : Nat) :
    ∀ p ∈ buildWeights groups vi, 0 < p.2 :=
  foldl_exportStep_pos vi groups [] (by simp)

/-- The entry a group contributes to the record of vertex `vi`, when it
contributes one. -/
def positiveEntry (vi : Nat) (g : VGroup) : Option (String × ℚ) :=
  match lookupW g.weights vi with
  | some w => if 0 < w then some (g.name, w) else none
  | none => none

theorem positiveEntry_eq_some (vi : Nat) (g : VGroup) (name : String) (w : ℚ) :
    positiveEntry vi g = some (name, w) ↔
      g.name = name ∧ lookupW g.weights vi = some w ∧ 0 < w := by
  unfold positiveEntry
  cases hw : lookupW g.weights vi with
  | none => simp
  | some w' =>
    by_cases hpos : 0 < w'
    · simp only [if_pos hpos, Option.some.injEq, Prod.mk.injEq]
      constructor
      · rintro ⟨h1, h2⟩
        subst h2
        exact ⟨h1, rfl, hpos⟩
      · rintro ⟨h1, h2, _⟩
        exact ⟨h1, h2⟩
    · simp only [if_neg hpos, Option.some.injEq]
      constructor
      · intro h
        simp at h
      · rintro ⟨_, h2, h3⟩
        subst h2
        exact absurd h3 hpos

theorem dictInsert_fresh (d : List (String × ℚ)) (k : String) (v : ℚ)
    (h : k ∉ d.map Prod.fst) : dictInsert d k v = d ++ [(k, v)] := by
  induction d with
  | nil => rfl
  | cons q rest ih =>
    obtain ⟨k', v'⟩ := q
    have hk : k' ≠ k := by
      intro heq
      exact h (by simp [heq])
    simp only [dictInsert, if_neg hk, List.cons_append]
    congr 1
    exact ih (fun hmem => h (by simp [hmem]))

theorem foldl_exportStep_nodup (vi : Nat) :
    ∀ (groups : List VGroup) (d : List (String × ℚ)),
      (groups.map VGroup.name).Nodup →
      (∀ g ∈ groups, g.name ∉ d.map Prod.fst) →
      groups.foldl (exportStep vi) d = d ++ groups.filterMap (positiveEntry vi) := by
  intro groups
  induction groups with
  | nil => intro d _ _; simp
  | cons g rest ih =>
    intro d hnd hfresh
    have hnd' : (rest.map VGroup.name).Nodup := (List.nodup_cons.mp (by simpa using hnd)).2
    have hgrest : g.name ∉ rest.map VGroup.name := (List.nodup_cons.mp (by simpa using hnd)).1
    simp only [List.foldl_cons]
    cases hw : lookupW g.weights vi with
    | none =>
      have hstep : exportStep vi d g = d := by simp [exportStep, hw]
      rw [hstep, ih d hnd' (fun g' hg' => hfresh g' (List.mem_cons_of_mem _ hg'))]
      simp [List.filterMap_cons, positiveEntry, hw]
    | some w =>
      by_cases hpos : 0 < w
      · have hfr : g.name ∉ d.map Prod.fst := hfresh g (List.mem_cons_self _ _)
        have hstep : exportStep vi d g = d ++ [(g.name, w)] := by
          simp [exportStep, hw, hpos, dictInsert_fresh d g.name w hfr]
        rw [hstep, ih (d ++ [(g.name, w)]) hnd' ?_]
        · simp [List.filterMap_cons, positiveEntry, hw, hpos]
        · intro g' hg'
          simp only [List.map_append, List.mem_append]
          rintro (hmem | hmem)
          · exact hfresh g' (List.mem_cons_of_mem _ hg') hmem
          · simp only [List.map_cons, List.map_nil, List.mem_singleton] at hmem
            exact hgrest (hmem ▸ List.mem_map_of_mem VGroup.name hg')
      · have hstep : exportStep vi d g = d := by simp [exportStep, hw, hpos]
        rw [hstep, ih d hnd' (fun g' hg' => hfresh g' (List.mem_cons_of_mem _ hg'))]
        simp [List.filterMap_cons, positiveEntry, hw, hpos]

theorem buildWeights_eq_filterMap (groups : List VGroup) (vi : Nat)
    (hnd : (groups.map VGroup.name).Nodup) :
    buildWeights groups vi = groups.filterMap (positiveEntry vi) := by
  simpa using foldl_exportStep_nodup vi groups [] hnd (by simp)

theorem mem_buildWeights (groups : List VGroup) (vi : Nat)
    (hnd : (groups.map VGroup.name).Nodup) (name : String) (w : ℚ) :
    (name, w) ∈ buildWeights groups vi ↔
      ∃ g ∈ groups, g.name = name ∧ lookupW g.weights vi = some w ∧ 0 < w := by
  rw [buildWeights_eq_filterMap groups vi hnd, List.mem_filterMap]
  constructor
  · rintro ⟨g, hg, hge⟩
    exact ⟨g, hg, (positiveEntry_eq_some vi g name w).mp hge⟩
  · rintro ⟨g, hg, hge⟩
    exact ⟨g, hg, (positiveEntry_eq_some vi g name w).mpr hge⟩

/-! Round-trip machinery: importing the freshly exported dataset in Position
mode onto the untouched source mesh leaves the sink pointwise unchanged. -/

theorem processVertex_position_self (m : Mesh)
    (hpos : m.vertices.Nodup)
    (hnames : (m.vertex_groups.map VGroup.name).Nodup)
    (j : Nat) (hj : j < m.vertices.length) :
    processVertex "POSITION" (exportLoop m m.vertices 0) m j m.vertices[j]
      (meshSink m) = meshSink m := by
  have hmi : matchIndex "POSITION" (exportLoop m m.vertices 0) m j m.vertices[j]
      = some (Int.ofNat j) := by
    unfold matchIndex
    rw [if_pos rfl, exportLoop_map_co m m.vertices 0,
      kdtree_find_self m.vertices hpos j hj]
  have hget : (exportLoop m m.vertices 0).get? j
      = some (mkRecord m j m.vertices[j]) := by
    rw [exportLoop_get? m m.vertices 0 j, List.get?_eq_getElem?,
      List.getElem?_eq_getElem hj]
    simp
  unfold processVertex
  rw [hmi]
  have hred : (Int.ofNat j).toNat = j := rfl
  simp only [hred, hget, mkRecord, Option.getD_some]
  by_cases hempty : buildWeights m.vertex_groups j = []
  · rw [if_pos hempty]
  · rw [if_neg hempty]
    refine foldl_applyWeight_self j (buildWeights m.vertex_groups j) (meshSink m) ?_
    intro p hp
    obtain ⟨name, w⟩ := p
    obtain ⟨g, hg, hgname, hgw, _⟩ :=
      (mem_buildWeights m.vertex_groups j hnames name w).mp hp
    refine ⟨g.weights, ?_, hgw⟩
    rw [← hgname]
    exact sinkGet_meshSink m.vertex_groups hnames g hg

theorem mem_exportLoop (m : Mesh) :
    ∀ (vs : List (ℚ × ℚ × ℚ)) (i : Nat) (r : VertexRecord),
      r ∈ exportLoop m vs i → ∃ k co, r = mkRecord m k co := by
  intro vs
  induction vs with
  | nil => intro i r hr; simp [exportLoop] at hr
  | cons co rest ih =>
    intro i r hr
    rcases List.mem_cons.mp hr with rfl | hr'
    · exact ⟨i, co, rfl⟩
    · exact ih (i + 1) r hr'

/-! Claim theorems. -/

/-- C1: For every mesh, exporting its skin weights and then importing the
resulting dataset in Position mode onto an identical, unmoved copy of that
mesh (with unique vertex positions; group names are unique, as the host
enforces) reproduces every original weight value exactly: the distance-zero
match is always preferred and resolves each vertex to its own record, so the
target's vertex-group state is left identical. -/
theorem export_import_position_roundtrip (m : Mesh)
    (hne : m.vertices ≠ [])
    (hpos : m.vertices.Nodup)
    (hnames : (m.vertex_groups.map VGroup.name).Nodup) :
    import_skin_weights (export_skin_weights m) "POSITION" m (meshSink m)
      = ImportOutcome.ok (meshSink m) := by
  unfold export_skin_weights
  rw [if_neg hne]
  unfold import_skin_weights
  have hrecne : exportLoop m m.vertices 0 ≠ [] := by
    intro h
    apply hne
    have hl := exportLoop_length m m.vertices 0
    rw [h] at hl
    exact List.length_eq_zero.mp hl.symm
  simp only [if_neg hrecne]
  congr 1
  refine importLoop_const "POSITION" (exportLoop m m.vertices 0) m m.vertices 0
    (meshSink m) ?_
  intro j hj
  have h := processVertex_position_self m hpos hnames j hj
  simpa [Nat.zero_add] using h

/-- A small concrete UV-loop list: two loops, both referencing vertex 0. -/
def sampleLoops : List (Nat × ℚ × ℚ) := [(0, (0, 0)), (0, (1, 1))]

/-- A small concrete mesh: two vertices at distinct positions, a UV layer, and
two groups, one of which stores a non-positive weight. -/
def sampleMesh : Mesh :=
  { vertices := [(0, 0, 0), (1, 0, 0)]
    uv_layer := some [(0, (0, 0)), (1, (1, 1))]
    vertex_groups := [⟨"Bone", [(0, 1/2), (1, 1)]⟩, ⟨"Tip", [(0, -1), (1, 0)]⟩] }

theorem export_import_position_roundtrip_witness :
    sampleMesh.vertices ≠ [] ∧ sampleMesh.vertices.Nodup ∧
      (sampleMesh.vertex_groups.map VGroup.name).Nodup ∧
      import_skin_weights (export_skin_weights sampleMesh) "POSITION" sampleMesh
        (meshSink sampleMesh) = ImportOutcome.ok (meshSink sampleMesh) :=
  ⟨by decide, by decide, by decide,
    export_import_position_roundtrip sampleMesh (by decide) (by decide) (by decide)⟩

/-- C2: For every source mesh and every vertex group, a weight value less than
or equal to zero (or one the group reports as unset) never appears in the
serialized dataset: every weight present in an exported record is strictly
positive. -/
theorem export_weights_positive (m : Mesh) (doc : Document)
    (hdoc : export_skin_weights m = some doc) :
    ∀ r ∈ doc.vertices, ∀ p ∈ r.weights.getD [], 0 < p.2 := by
  unfold export_skin_weights at hdoc
  by_cases hne : m.vertices = []
  · rw [if_pos hne] at hdoc
    cases hdoc
  · rw [if_neg hne] at hdoc
    cases hdoc
    intro r hr p hp
    obtain ⟨k, co, rfl⟩ := mem_exportLoop m m.vertices 0 r hr
    simp only [mkRecord, Option.getD_some] at hp
    exact buildWeights_pos m.vertex_groups k p hp

theorem export_weights_positive_witness :
    export_skin_weights sampleMesh
        = some ⟨exportLoop sampleMesh sampleMesh.vertices 0⟩ ∧
      ∀ r ∈ (exportLoop sampleMesh sampleMesh.vertices 0),
        ∀ p ∈ r.weights.getD [], 0 < p.2 :=
  ⟨by unfold export_skin_weights; rw [if_neg (by decide)],
    export_weights_positive sampleMesh
      ⟨exportLoop sampleMesh sampleMesh.vertices 0⟩
      (by unfold export_skin_weights; rw [if_neg (by decide)])⟩

/-- C3: The UV-averaging operation is a pure function that returns the
component-wise arithmetic mean of the UV pairs of exactly those loop entries
whose vertex index matches — here characterised without division, as the
matching-entry count times each returned component equalling the component
sum — and returns `none` (absent) exactly when zero entries match: when there
is no UV layer, or no loop references the vertex; on loop values
`[(0,0), (1,1)]` it returns `(0.5, 0.5)`. -/
theorem get_uv_coords_mean :
    (∀ vi, get_uv_coords none vi = none) ∧
    (∀ loops vi, get_uv_coords (some loops) vi = none ↔
        loops.filter (fun l => l.1 == vi) = []) ∧
    (∀ loops vi p, get_uv_coords (some loops) vi = some p →
        ((((loops.filter (fun l => l.1 == vi)).map (fun l => l.2)).length : ℚ) * p.1
            = (((loops.filter (fun l => l.1 == vi)).map (fun l => l.2)).map Prod.fst).sum ∧
         (((loops.filter (fun l => l.1 == vi)).map (fun l => l.2)).length : ℚ) * p.2
            = (((loops.filter (fun l => l.1 == vi)).map (fun l => l.2)).map Prod.snd).sum)) ∧
    get_uv_coords (some [(0, (0, 0)), (0, (1, 1))]) 0 = some (1/2, 1/2) := by
  have hex : get_uv_coords (some [(0, (0, 0)), (0, (1, 1))]) 0 = some (1/2, 1/2) := by
    simp only [get_uv_coords]
    rw [if_neg (by decide)]
    norm_num
  refine ⟨fun vi => rfl, ?_, ?_, hex⟩
  · intro loops vi
    simp only [get_uv_coords]
    by_cases hf : loops.filter (fun l => l.1 == vi) = []
    · simp [hf]
    · simp [hf]
  · intro loops vi p hp
    simp only [get_uv_coords] at hp
    set ms := (loops.filter (fun l => l.1 == vi)).map (fun l => l.2) with hms
    by_cases hf : ms = []
    · rw [if_pos hf] at hp
      cases hp
    · rw [if_neg hf] at hp
      have hlen : (ms.length : ℚ) ≠ 0 := by
        have h0 : ms.length ≠ 0 := by
          simpa [List.length_eq_zero] using hf
        exact_mod_cast h0
      injection hp with h
      subst h
      constructor
      · show (ms.length : ℚ) * ((ms.map Prod.fst).sum / (ms.length : ℚ))
            = (ms.map Prod.fst).sum
        field_simp
      · show (ms.length : ℚ) * ((ms.map Prod.snd).sum / (ms.length : ℚ))
            = (ms.map Prod.snd).sum
        field_simp

theorem get_uv_coords_mean_witness :
    get_uv_coords (some sampleLoops) 0 = some (1/2, 1/2) ∧
      (((sampleLoops.filter (fun l => l.1 == 0)).map (fun l => l.2)).length : ℚ)
          * ((1 : ℚ)/2)
        = (((sampleLoops.filter (fun l => l.1 == 0)).map (fun l => l.2)).map Prod.fst).sum ∧
      (((sampleLoops.filter (fun l => l.1 == 0)).map (fun l => l.2)).length : ℚ)
          * ((1 : ℚ)/2)
        = (((sampleLoops.filter (fun l => l.1 == 0)).map (fun l => l.2)).map Prod.snd).sum :=
  ⟨by simp only [get_uv_coords, sampleLoops]; rw [if_neg (by decide)]; norm_num,
    get_uv_coords_mean.2.2.1 sampleLoops 0 (1/2, 1/2)
      (by simp only [get_uv_coords, sampleLoops]; rw [if_neg (by decide)]; norm_num)⟩

/-- Characterization of the UV matcher on a non-empty dataset, obtained from
the generic scan lemma: it returns the first index minimizing the squared UV
distance to the target's averaged UV. -/
theorem find_closest_uv_match_spec (obj : Mesh) (vi : Nat)
    (data : List VertexRecord) (h : data ≠ []) :
    ∃ k, ∃ hk : k < data.length,
      find_closest_uv_match obj vi data = Int.ofNat k ∧
      (∀ j, ∀ hj : j < data.length,
        sqDist2 (targetUV obj vi) (recordUV data[k])
          ≤ sqDist2 (targetUV obj vi) (recordUV data[j])) ∧
      (∀ j, j < k → ∀ hj : j < data.length,
        sqDist2 (targetUV obj vi) (recordUV data[k])
          < sqDist2 (targetUV obj vi) (recordUV data[j])) := by
  unfold find_closest_uv_match
  rw [if_neg h]
  have hdne : (data.map fun r => sqDist2 (targetUV obj vi) (recordUV r)) ≠ [] := by
    simpa using h
  obtain ⟨k, hk, hres, hmin, hfirst⟩ := scanMin_spec _ (-1) hdne
  have hk' : k < data.length := by simpa using hk
  refine ⟨k, hk', hres, ?_, ?_⟩
  · intro j hj
    have hj' : j < (data.map fun r => sqDist2 (targetUV obj vi) (recordUV r)).length := by
      simpa using hj
    have := hmin j hj'
    simpa using this
  · intro j hjk hj
    have hj' : j < (data.map fun r => sqDist2 (targetUV obj vi) (recordUV r)).length := by
      simpa using hj
    have := hfirst j hjk hj'
    simpa using this

/-- C4: For every target vertex and every dataset, the UV matcher returns the
index of a record whose UV attains the minimum squared Euclidean distance in
2D to the target vertex's averaged UV (the target UV defaulting to `(0,0)`
when unavailable and a record's missing UV to `(0,0)`, via `targetUV` and
`recordUV`); it returns `-1` ("no match") if and only if the dataset is
empty. -/
theorem uv_match_minimizes (obj : Mesh) (vi : Nat) (data : List VertexRecord) :
    (find_closest_uv_match obj vi data = -1 ↔ data = []) ∧
    (data ≠ [] → ∃ k, ∃ hk : k < data.length,
      find_closest_uv_match obj vi data = Int.ofNat k ∧
      ∀ j, ∀ hj : j < data.length,
        sqDist2 (targetUV obj vi) (recordUV data[k])
          ≤ sqDist2 (targetUV obj vi) (recordUV data[j])) := by
  constructor
  · constructor
    · intro hres
      by_contra hne
      obtain ⟨k, hk, hres', _, _⟩ := find_closest_uv_match_spec obj vi data hne
      rw [hres'] at hres
      rw [Int.ofNat_eq_coe] at hres
      omega
    · intro hdata
      rw [hdata]
      rfl
  · intro hne
    obtain ⟨k, hk, hres, hmin, _⟩ := find_closest_uv_match_spec obj vi data hne
    exact ⟨k, hk, hres, hmin⟩

/-- A small concrete dataset: one record with full keys, one record missing
its `"weights"` key. -/
def sampleData : List VertexRecord :=
  [⟨(0, 0, 0), some (0, 0), some [("Bone", 1/2)]⟩,
   ⟨(1, 0, 0), some (1, 1), none⟩]

theorem uv_match_minimizes_witness :
    sampleData ≠ [] ∧
      (∃ k, ∃ hk : k < sampleData.length,
        find_closest_uv_match sampleMesh 0 sampleData = Int.ofNat k ∧
        ∀ j, ∀ hj : j < sampleData.length,
          sqDist2 (targetUV sampleMesh 0) (recordUV sampleData[k])
            ≤ sqDist2 (targetUV sampleMesh 0) (recordUV sampleData[j])) :=
  ⟨by decide, (uv_match_minimizes sampleMesh 0 sampleData).2 (by decide)⟩

/-- C9: On a non-empty dataset, when several records attain the same minimal
squared UV distance the matcher returns the smallest such array index (the
strict less-than comparison keeps the first-encountered minimum).  The
matcher of the embedding is a pure function, so determinism — equal outputs
on equal inputs — holds by reflexivity. -/
theorem uv_match_first_of_ties (obj : Mesh) (vi : Nat) (data : List VertexRecord)
    (h : data ≠ []) :
    ∃ k, ∃ hk : k < data.length,
      find_closest_uv_match obj vi data = Int.ofNat k ∧
      ∀ j, ∀ hj : j < data.length,
        sqDist2 (targetUV obj vi) (recordUV data[j])
            = sqDist2 (targetUV obj vi) (recordUV data[k]) → k ≤ j := by
  obtain ⟨k, hk, hres, _, hfirst⟩ := find_closest_uv_match_spec obj vi data h
  refine ⟨k, hk, hres, ?_⟩
  intro j hj heq
  by_contra hlt
  push_neg at hlt
  exact lt_irrefl _ (heq ▸ hfirst j hlt hj)

theorem uv_match_first_of_ties_witness :
    sampleData ≠ [] ∧
      (∃ k, ∃ hk : k < sampleData.length,
        find_closest_uv_match sampleMesh 1 sampleData = Int.ofNat k ∧
        ∀ j, ∀ hj : j < sampleData.length,
          sqDist2 (targetUV sampleMesh 1) (recordUV sampleData[j])
              = sqDist2 (targetUV sampleMesh 1) (recordUV sampleData[k]) → k ≤ j) :=
  ⟨by decide, uv_match_first_of_ties sampleMesh 1 sampleData (by decide)⟩

/-- After `applyWeight`, the group holds exactly the imported value for that
vertex, whatever it held before. -/
theorem sinkLookup_applyWeight (s : Sink) (g : String) (vi : Nat) (w : ℚ) :
    sinkLookup (applyWeight s g vi w) g vi = some w := by
  induction s with
  | nil => simp [applyWeight, sinkLookup, sinkGet, lookupW_assocSet]
  | cons p rest ih =>
    obtain ⟨n, l⟩ := p
    by_cases hn : n = g
    · simp [applyWeight, sinkLookup, sinkGet, hn, lookupW_assocSet]
    · simp only [applyWeight, if_neg hn]
      simpa [sinkLookup, sinkGet, hn] using ih

/-- `applyWeight` keeps the existing group list when the group exists and
appends the new group at the end otherwise. -/
theorem applyWeight_names (s : Sink) (g : String) (vi : Nat) (w : ℚ) :
    (applyWeight s g vi w).map Prod.fst
      = (if (sinkGet s g).isSome then s.map Prod.fst else s.map Prod.fst ++ [g]) := by
  induction s with
  | nil => simp [applyWeight, sinkGet]
  | cons p rest ih =>
    obtain ⟨n, l⟩ := p
    by_cases hn : n = g
    · simp [applyWeight, sinkGet, hn]
    · by_cases hs : (sinkGet rest g).isSome
      · simp [applyWeight, sinkGet, hn, hs, ih]
      · simp [applyWeight, sinkGet, hn, hs, ih]

/-- C5: For every matched (target vertex, group name, weight) triple during
import, the weight is applied with replace semantics: the group is looked up,
or created (appended) in the target if absent, and the vertex's weight in that
group afterwards equals exactly the imported value, overwriting any prior
value rather than accumulating — in particular applying `7/10` over an
existing `3/10` yields exactly `7/10`. -/
theorem import_weight_replace (s : Sink) (g : String) (vi : Nat) (w : ℚ) :
    sinkLookup (applyWeight s g vi w) g vi = some w ∧
    (applyWeight s g vi w).map Prod.fst
      = (if (sinkGet s g).isSome then s.map Prod.fst else s.map Prod.fst ++ [g]) ∧
    sinkLookup (applyWeight [("Bone", [(0, 3/10)])] "Bone" 0 (7/10)) "Bone" 0
      = some (7/10) :=
  ⟨sinkLookup_applyWeight s g vi w, applyWeight_names s g vi w,
    sinkLookup_applyWeight [("Bone", [(0, 3/10)])] "Bone" 0 (7/10)⟩

/-- The empty mesh: zero vertices. -/
def emptyMesh : Mesh := ⟨[], none, []⟩

/-- C6: An import whose file fails to parse, or whose parsed dataset is
empty, aborts with a reported error carrying the target's sink unchanged
(no group created, no weight touched); an export of a mesh with zero vertices
aborts producing no output document. -/
theorem abort_no_mutation :
    (∀ mode obj sink, import_skin_weights none mode obj sink
        = ImportOutcome.error "Import Failed" sink) ∧
    (∀ mode obj sink (doc : Document), doc.vertices = [] →
      import_skin_weights (some doc) mode obj sink
        = ImportOutcome.error "No valid vertex data found in file!" sink) ∧
    (∀ m : Mesh, m.vertices = [] → export_skin_weights m = none) := by
  refine ⟨fun mode obj sink => rfl, ?_, ?_⟩
  · intro mode obj sink doc hd
    simp only [import_skin_weights]
    rw [if_pos hd]
  · intro m hm
    unfold export_skin_weights
    rw [if_pos hm]

theorem abort_no_mutation_witness :
    import_skin_weights none "UV" sampleMesh (meshSink sampleMesh)
        = ImportOutcome.error "Import Failed" (meshSink sampleMesh) ∧
      ((⟨[]⟩ : Document).vertices = [] ∧
        import_skin_weights (some ⟨[]⟩) "POSITION" sampleMesh (meshSink sampleMesh)
          = ImportOutcome.error "No valid vertex data found in file!"
              (meshSink sampleMesh)) ∧
      (emptyMesh.vertices = [] ∧ export_skin_weights emptyMesh = none) :=
  ⟨abort_no_mutation.1 "UV" sampleMesh (meshSink sampleMesh),
   ⟨rfl, abort_no_mutation.2.1 "POSITION" sampleMesh (meshSink sampleMesh) ⟨[]⟩ rfl⟩,
   ⟨rfl, abort_no_mutation.2.2 emptyMesh rfl⟩⟩

/-- C7: An import invoked with a mapping mode other than Position or UV
silently skips every target vertex: the call still succeeds (no error is
raised), no weight group is created, and no weight value on the target
changes — the sink is returned untouched. -/
theorem unknown_mode_noop (mode : String) (h1 : mode ≠ "POSITION")
    (h2 : mode ≠ "UV") (doc : Document) (hne : doc.vertices ≠ [])
    (obj : Mesh) (sink : Sink) :
    import_skin_weights (some doc) mode obj sink = ImportOutcome.ok sink := by
  simp only [import_skin_weights]
  rw [if_neg hne]
  congr 1
  refine importLoop_const mode doc.vertices obj obj.vertices 0 sink ?_
  intro j hj
  unfold processVertex matchIndex
  rw [if_neg h1, if_neg h2]

/-- The sample dataset wrapped as a parsed document. -/
def sampleDoc : Document := ⟨sampleData⟩

theorem unknown_mode_noop_witness :
    ("NORMAL" : String) ≠ "POSITION" ∧ ("NORMAL" : String) ≠ "UV" ∧
      sampleDoc.vertices ≠ [] ∧
      import_skin_weights (some sampleDoc) "NORMAL" sampleMesh (meshSink sampleMesh)
        = ImportOutcome.ok (meshSink sampleMesh) :=
  ⟨by decide, by decide, by decide,
    unknown_mode_noop "NORMAL" (by decide) (by decide) sampleDoc (by decide)
      sampleMesh (meshSink sampleMesh)⟩

/-- C8: A successful export of a mesh with at least one vertex (group names
unique, as the host enforces) produces a document with a single `"vertices"`
array holding exactly one record per source vertex in iteration order:
record `i` carries the `i`-th vertex's position under `co`, its averaged UV —
exactly `(0,0)` when the vertex has none — under `uv`, and under `weights`
exactly the strictly positive stored weights of vertex `i` (possibly none). -/
theorem export_document_shape (m : Mesh) (hne : m.vertices ≠ [])
    (hnames : (m.vertex_groups.map VGroup.name).Nodup) :
    ∃ doc, export_skin_weights m = some doc ∧
      doc.vertices.length = m.vertices.length ∧
      ∀ i (c : ℚ × ℚ × ℚ), m.vertices.get? i = some c →
        ∃ r, doc.vertices.get? i = some r ∧
          r.co = c ∧
          r.uv = some ((get_uv_coords m.uv_layer i).getD (0, 0)) ∧
          ∀ (g : String) (w : ℚ),
            ((g, w) ∈ r.weights.getD [] ↔
              ∃ vg ∈ m.vertex_groups,
                vg.name = g ∧ lookupW vg.weights i = some w ∧ 0 < w) := by
  refine ⟨⟨exportLoop m m.vertices 0⟩, ?_, exportLoop_length m m.vertices 0, ?_⟩
  · unfold export_skin_weights
    rw [if_neg hne]
  · intro i c hc
    refine ⟨mkRecord m i c, ?_, rfl, rfl, ?_⟩
    · rw [exportLoop_get? m m.vertices 0 i, hc]
      simp
    · intro g w
      simp only [mkRecord, Option.getD_some]
      exact mem_buildWeights m.vertex_groups i hnames g w

theorem export_document_shape_witness :
    sampleMesh.vertices ≠ [] ∧
      (sampleMesh.vertex_groups.map VGroup.name).Nodup ∧
      (∃ doc, export_skin_weights sampleMesh = some doc ∧
        doc.vertices.length = sampleMesh.vertices.length ∧
        ∀ i (c : ℚ × ℚ × ℚ), sampleMesh.vertices.get? i = some c →
          ∃ r, doc.vertices.get? i = some r ∧
            r.co = c ∧
            r.uv = some ((get_uv_coords sampleMesh.uv_layer i).getD (0, 0)) ∧
            ∀ (g : String) (w : ℚ),
              ((g, w) ∈ r.weights.getD [] ↔
                ∃ vg ∈ sampleMesh.vertex_groups,
                  vg.name = g ∧ lookupW vg.weights i = some w ∧ 0 < w)) :=
  ⟨by decide, by decide, export_document_shape sampleMesh (by decide) (by decide)⟩

/-- Normalization that materializes the matcher's default for a missing
`"uv"` key. -/
def fillUV (r : VertexRecord) : VertexRecord := { r with uv := some (r.uv.getD (0, 0)) }

/-- C10: The importer tolerates individual records lacking the `"uv"` or
`"weights"` keys within an otherwise arbitrary dataset: a record with no
`"uv"` participates in UV matching exactly as if its UV were `(0,0)`
(replacing every missing UV by `(0,0)` leaves the matcher's answer
unchanged), and whenever the record at the matched index carries a missing or
empty `"weights"` mapping, that target vertex is skipped with no group
created and no weight changed. -/
theorem missing_keys_tolerated :
    (∀ obj vi data, find_closest_uv_match obj vi (data.map fillUV)
        = find_closest_uv_match obj vi data) ∧
    (∀ mode data obj vi co sink (j : Int) (closest : VertexRecord),
      matchIndex mode data obj vi co = some j →
      data.get? j.toNat = some closest →
      (closest.weights = none ∨ closest.weights = some []) →
      processVertex mode data obj vi co sink = sink) := by
  constructor
  · intro obj vi data
    unfold find_closest_uv_match
    by_cases hd : data = []
    · simp [hd]
    · rw [if_neg hd, if_neg (by simpa using hd), List.map_map]
      rfl
  · intro mode data obj vi co sink j closest hmi hg hcl
    have hw : closest.weights.getD [] = [] := by
      rcases hcl with h1 | h1 <;> simp [h1]
    unfold processVertex
    rw [hmi]
    rw [List.get?_eq_getElem?] at hg
    simp [hg, hw]

/-- A record with both optional keys absent. -/
def bareRecord : VertexRecord := ⟨(0, 0, 0), none, none⟩

/-- A mixed dataset: the first record carries weights, the second lacks both
its `"uv"`-derived weight data — its `"weights"` key is absent. -/
def mixedData : List VertexRecord :=
  [⟨(0, 0, 0), some (1, 1), some [("Bone", 1/2)]⟩,
   ⟨(0, 0, 0), some (0, 0), none⟩]

/-- A one-vertex target mesh with no UV layer, so its averaged target UV
defaults to `(0,0)`. -/
def bareMesh : Mesh := ⟨[(0, 0, 0)], none, []⟩

theorem missing_keys_tolerated_witness :
    find_closest_uv_match sampleMesh 0 ([bareRecord].map fillUV)
        = find_closest_uv_match sampleMesh 0 [bareRecord] ∧
      matchIndex "UV" mixedData bareMesh 0 (0, 0, 0) = some 1 ∧
      mixedData.get? (1 : Int).toNat = some ⟨(0, 0, 0), some (0, 0), none⟩ ∧
      ((⟨(0, 0, 0), some (0, 0), none⟩ : VertexRecord).weights = none ∨
        (⟨(0, 0, 0), some (0, 0), none⟩ : VertexRecord).weights = some []) ∧
      processVertex "UV" mixedData bareMesh 0 (0, 0, 0) (meshSink sampleMesh)
        = meshSink sampleMesh := by
  have hmi : matchIndex "UV" mixedData bareMesh 0 (0, 0, 0) = some 1 := by
    unfold matchIndex
    rw [if_neg (by decide), if_pos rfl]
    have hfind : find_closest_uv_match bareMesh 0 mixedData = 1 := by
      unfold find_closest_uv_match
      rw [if_neg (by decide)]
      norm_num [scanMinAux, ltInf, targetUV, recordUV, get_uv_coords, mixedData,
        bareMesh, sqDist2]
    simp only [hfind]
    norm_num
  refine ⟨missing_keys_tolerated.1 sampleMesh 0 [bareRecord], hmi, rfl, Or.inl rfl, ?_⟩
  exact missing_keys_tolerated.2 "UV" mixedData bareMesh 0 (0, 0, 0)
    (meshSink sampleMesh) 1 ⟨(0, 0, 0), some (0, 0), none⟩ hmi rfl (Or.inl rfl)

end SkinWeights
